import Mathlib

/-!
Verification of the SPFlow probabilistic-circuit evaluation engine
(sum/product node inference, structural marginalization, conditional
parameter retrieval, leaf evaluation with missing-data semantics, and
multivariate-Gaussian conditional sampling), shallowly embedded from the
Python sources of the repository.

Floating-point tensors are modelled as real numbers; the missing-value
sentinel NaN is modelled as `Option.none` in data cells (`some x` is an
observed value `x`).  Leaf probability-density formulas are external
collaborators of the engine and are abstracted as oracle functions.
-/

namespace SPFlow

/-- A data row of the batch: column index to cell, `none` is the NaN
missing-value sentinel. -/
def Row : Type := ℕ → Option ℝ

/-! ## Circuit structure (torch/structure/nodes/node.py)

`Circuit` embeds the node graph: `leaf` is a leaf node carrying the query
scope of the variables it models (`LeafNode.scope.query`, an ordered list of
distinct column indices); `sumN` is `SPNSumNode` with its children and
weight vector; `prodN` is `SPNProductNode`.  Distribution parameters of
leaves are not represented structurally: the log-density of a leaf is
abstracted as an oracle function of its query scope and the data row.
This abstraction is sound for the combinator computations (claims about
sum/product nodes) and for univariate leaves, whose `marginalize`
dispatches to the generic `Node` implementation (whole-node copy or
elimination only, never altering parameters).  It deliberately does NOT
model the parameter slicing of `MultivariateGaussian.marginalize`, which
indexes the mean vector and covariance matrix by variable ids used as
tensor positions; that slicing is embedded separately below (`GaussLeaf`)
and shown to break marginalization composition (claim C4). -/
inductive Circuit : Type
  | leaf (scope : List ℕ)
  | sumN (children : List Circuit) (weights : List ℝ)
  | prodN (children : List Circuit)

mutual

/-- Query scope of a node, as stored in `self.scope` at construction:
for a leaf its own query variables, for `SPNSumNode` and `SPNProductNode`
the union of all child scopes (node.py constructors). -/
def qscope : Circuit → Finset ℕ
  | .leaf s => s.toFinset
  | .sumN cs _ => qscopeList cs
  | .prodN cs => qscopeList cs

/-- Union of the query scopes of a list of children. -/
def qscopeList : List Circuit → Finset ℕ
  | [] => ∅
  | c :: cs => qscope c ∪ qscopeList cs

end

/-! ## Log-likelihood evaluation (torch/inference/nodes/node.py)

`log_likelihood(SPNSumNode)` stacks the children's log-likelihood columns,
adds the elementwise log of the weight vector and reduces by
`torch.logsumexp`; `log_likelihood(SPNProductNode)` stacks the children's
columns and sums them.  `torch.logsumexp xs = log (Σ exp xᵢ)` (the
max-shifted evaluation used for numerical stability is exact over ℝ).
A leaf's log-density is given by the oracle `D` applied to the leaf's
query scope and the data row. -/
noncomputable def logsumexp (xs : List ℝ) : ℝ :=
  Real.log (xs.map Real.exp).sum

mutual

/-- Log-likelihood of one node on one data row, following the recursive
computation of `log_likelihood` in torch/inference/nodes/node.py with the
leaf log-density abstracted as the oracle `D`. -/
noncomputable def ll (D : List ℕ → Row → ℝ) (row : Row) : Circuit → ℝ
  | .leaf s => D s row
  | .sumN cs w => logsumexp (List.zipWith (fun x wi => x + Real.log wi) (llList D row cs) w)
  | .prodN cs => (llList D row cs).sum

/-- The stacked (`torch.hstack`) child log-likelihood columns of a node. -/
noncomputable def llList (D : List ℕ → Row → ℝ) (row : Row) : List Circuit → List ℝ
  | [] => []
  | c :: cs => ll D row c :: llList D row cs

end

/-! ## Structural marginalization (torch/structure/nodes/node.py)

`marginalize(node, marg_rvs, prune)` dispatches on the node type.  All
three implementations first intersect the node's query scope with the
marginalization set: if the intersection covers the whole query scope the
node is fully marginalized (`None`); if it is empty the node is returned
as an unchanged deep copy; otherwise the node is partially marginalized.
For leaves, the partial case restricts the scope to the surviving
variables in order (`MultivariateGaussian.marginalize`:
`marg_scope = [rv for rv in self.scope.query if rv not in marg_rvs]`);
univariate leaves never reach the partial case since their query scope is
a singleton.  A sum node rebuilds itself over the marginalized children
with its original weight vector; a product node drops `None` children and,
when `prune` is set and exactly one child survives, returns that child
directly. -/

mutual

/-- Embedding of `marginalize` from torch/structure/nodes/node.py (with the
leaf case following `MultivariateGaussian.marginalize` for partial
overlap).  `none` is the Python `None` result of a fully marginalized
node. -/
def marginalize : Circuit → Finset ℕ → Bool → Option Circuit
  | .leaf s, M, _ =>
    let survivors := s.filter (fun v => v ∉ M)
    if survivors.isEmpty then none else some (.leaf survivors)
  | .sumN cs w, M, prune =>
    let Q := qscope (.sumN cs w)
    if Q ⊆ M then none
    else if Q ∩ M = ∅ then some (.sumN cs w)
    else some (.sumN (margList cs M prune) w)
  | .prodN cs, M, prune =>
    let Q := qscope (.prodN cs)
    if Q ⊆ M then none
    else if Q ∩ M = ∅ then some (.prodN cs)
    else
      let mcs := margList cs M prune
      if prune ∧ mcs.length = 1 then mcs.head? else some (.prodN mcs)

/-- Marginalize each child, dropping the fully marginalized (`None`)
ones (the `marg_children` loop of node.py). -/
def margList : List Circuit → Finset ℕ → Bool → List Circuit
  | [], _, _ => []
  | c :: cs, M, prune =>
    match marginalize c M prune with
    | none => margList cs M prune
    | some c₂ => c₂ :: margList cs M prune

end

/-! ## Basic bridge lemmas -/

theorem llList_eq_map (D : List ℕ → Row → ℝ) (row : Row) (cs : List Circuit) :
    llList D row cs = cs.map (ll D row) := by
  induction cs with
  | nil => rfl
  | cons c cs ih => simp [llList, ih]

theorem margList_eq_filterMap (cs : List Circuit) (M : Finset ℕ) (p : Bool) :
    margList cs M p = cs.filterMap (fun c => marginalize c M p) := by
  induction cs with
  | nil => rfl
  | cons c cs ih =>
    simp only [margList, List.filterMap_cons]
    cases marginalize c M p <;> simp [ih]

theorem mem_qscopeList {x : ℕ} {cs : List Circuit} :
    x ∈ qscopeList cs ↔ ∃ c ∈ cs, x ∈ qscope c := by
  induction cs with
  | nil => simp [qscopeList]
  | cons c cs ih => simp [qscopeList, ih]

/-- Strong induction principle for circuits, descending into the child
lists of sum and product nodes. -/
theorem Circuit.inductionOn {P : Circuit → Prop}
    (hleaf : ∀ s, P (.leaf s))
    (hsum : ∀ cs w, (∀ c ∈ cs, P c) → P (.sumN cs w))
    (hprod : ∀ cs, (∀ c ∈ cs, P c) → P (.prodN cs)) : ∀ c, P c
  | .leaf s => hleaf s
  | .sumN cs w =>
    hsum cs w (fun c hc => Circuit.inductionOn hleaf hsum hprod c)
  | .prodN cs =>
    hprod cs (fun c hc => Circuit.inductionOn hleaf hsum hprod c)
termination_by c => sizeOf c
decreasing_by
  all_goals
    have h := List.sizeOf_lt_of_mem hc
    simp only [Circuit.sumN.sizeOf_spec, Circuit.prodN.sizeOf_spec]
    omega

/-! ## Claim C1: sum node log-likelihood is the log-sum-exp of the weighted
child log-likelihoods -/

theorem map_exp_zipWith_add_log (D : List ℕ → Row → ℝ) (row : Row) :
    ∀ (cs : List Circuit) (w : List ℝ), (∀ x ∈ w, (0:ℝ) < x) →
      (List.zipWith (fun x wi => x + Real.log wi) (cs.map (ll D row)) w).map Real.exp
        = List.zipWith (fun c wi => Real.exp (ll D row c) * wi) cs w := by
  intro cs
  induction cs with
  | nil => intro w _; simp
  | cons c cs ih =>
    intro w hw
    cases w with
    | nil => simp
    | cons wi w =>
      simp only [List.map_cons, List.zipWith_cons_cons]
      rw [Real.exp_add, Real.exp_log (hw wi (by simp))]
      rw [ih w (fun x hx => hw x (List.mem_cons_of_mem _ hx))]

/-- Claim C1: for an SPN sum node over children `cs` with weight vector `w`
of positive entries, `log_likelihood` returns, on each data row, the
log-sum-exp over the children of (child log-likelihood + log weight), i.e.
`log (Σᵢ exp llᵢ · wᵢ)` — the weighted mixture computed in log space
(torch/inference/nodes/node.py, `log_likelihood(SPNSumNode)`). -/
theorem sumNode_ll_logsumexp (D : List ℕ → Row → ℝ) (row : Row)
    (cs : List Circuit) (w : List ℝ) (hw : ∀ x ∈ w, (0:ℝ) < x) :
    ll D row (.sumN cs w)
      = Real.log ((List.zipWith (fun c wi => Real.exp (ll D row c) * wi) cs w).sum) := by
  show logsumexp (List.zipWith (fun x wi => x + Real.log wi) (llList D row cs) w) = _
  rw [llList_eq_map]
  unfold logsumexp
  rw [map_exp_zipWith_add_log D row cs w hw]

/-- Witness for C1 at a concrete two-child sum node with weights
`[1/2, 1/2]`. -/
theorem sumNode_ll_logsumexp_witness :
    ll (fun _ _ => 0) (fun _ => none) (.sumN [.leaf [0], .leaf [1]] [1/2, 1/2])
      = Real.log ((List.zipWith
          (fun c wi => Real.exp (ll (fun _ _ => 0) (fun _ => none) c) * wi)
          [Circuit.leaf [0], Circuit.leaf [1]] [1/2, 1/2]).sum) :=
  sumNode_ll_logsumexp (fun _ _ => 0) (fun _ => none) [Circuit.leaf [0], Circuit.leaf [1]]
    [1/2, 1/2] (by intro x hx; simp at hx; rw [hx]; norm_num)

/-! ## Leaf log-likelihood with missing-data and support semantics

Embedding of the leaf `log_likelihood` implementations
(torch/inference/nodes/leaves/parametric/cond_gamma.py and
base/inference/nodes/leaves/parametric/geometric.py).  The code selects the
scope's query columns from the batch, marks the rows whose scope columns
are all NaN (`marg_ids`) and assigns them log-probability `0`; when
`check_support` is on it evaluates the distribution's support predicate on
the remaining rows (NaN entries are regarded as part of the support by
every `check_support` implementation) and raises a `ValueError` naming the
distribution family if any row fails; otherwise the remaining rows get the
distribution's log-density.  The distribution family is abstracted as its
name `fam`, a parameter space `Θ`, a per-value support predicate `supp`
and a per-row log-density `dens` (external collaborators of the engine). -/

/-- The scope columns of a row (`data[:, node.scope.query]` for one row). -/
def scopeVals (scope : List ℕ) (row : Row) : List (Option ℝ) :=
  scope.map row

/-- A row is fully marginalized when every scope column is the missing
sentinel (`marg_ids` in cond_gamma.py:
`torch.isnan(scope_data).sum(dim=1) == len(leaf.scope.query)`). -/
def isMargRow (scope : List ℕ) (row : Row) : Bool :=
  (scopeVals scope row).all (fun v => v.isNone)

/-- Support check of one row: every observed scope value satisfies the
distribution's support predicate; missing values count as valid
(cf. `check_support` in cond_exponential.py: NaN entries are regarded as
part of the support). -/
def rowInSupport {Θ : Type} (θ : Θ) (supp : Θ → ℝ → Bool) (scope : List ℕ)
    (row : Row) : Bool :=
  (scopeVals scope row).all (fun v => match v with | none => true | some x => supp θ x)

/-- Embedding of a leaf's `log_likelihood` over a data batch: an error
aborts the whole call with no partial result (`raise ValueError`), else one
log-density per row is returned. -/
def leafLogLikelihood {Θ : Type} (fam : String) (θ : Θ) (scope : List ℕ)
    (supp : Θ → ℝ → Bool) (dens : Θ → List (Option ℝ) → ℝ)
    (checkSupport : Bool) (data : List Row) : Except String (List ℝ) :=
  if checkSupport
      && data.any (fun row => !isMargRow scope row && !rowInSupport θ supp scope row) then
    Except.error ("Encountered data instances that are not in the support of the "
      ++ fam ++ " distribution.")
  else
    Except.ok (data.map (fun row =>
      if isMargRow scope row then 0 else dens θ (scopeVals scope row)))

/-! ## Claim C3: a fully missing row yields log-likelihood 0 and is not an
error -/

/-- Claim C3: a data row whose scope columns are all the missing sentinel
gets log-likelihood exactly `0`, for every parameter value, support
predicate, density and `check_support` flag; and a batch of such rows never
raises (the row is not an error). -/
theorem leaf_fully_marginalized_row {Θ : Type} (fam : String) (θ : Θ)
    (scope : List ℕ) (supp : Θ → ℝ → Bool) (dens : Θ → List (Option ℝ) → ℝ)
    (checkSupport : Bool) (row : Row)
    (hmarg : isMargRow scope row = true) :
    (∀ (data : List Row) (out : List ℝ) (i : ℕ), data[i]? = some row →
        leafLogLikelihood fam θ scope supp dens checkSupport data = Except.ok out →
        out[i]? = some 0)
    ∧ leafLogLikelihood fam θ scope supp dens checkSupport [row] = Except.ok [0] := by
  constructor
  · intro data out i hrow hok
    unfold leafLogLikelihood at hok
    split at hok
    · exact absurd hok (by simp)
    · have hout : out = data.map (fun row =>
          if isMargRow scope row then 0 else dens θ (scopeVals scope row)) := by
        injection hok with h; exact h.symm
      subst hout
      rw [List.getElem?_map, hrow]
      simp [hmarg]
  · unfold leafLogLikelihood
    simp [hmarg]

/-- Witness for C3 at a concrete leaf (scope `[0]`) and the all-missing
row. -/
theorem leaf_fully_marginalized_row_witness :
    (∀ (data : List Row) (out : List ℝ) (i : ℕ), data[i]? = some (fun _ => none) →
        leafLogLikelihood "Gamma" () [0] (fun _ _ => true) (fun _ _ => 1) true data
          = Except.ok out →
        out[i]? = some 0)
    ∧ leafLogLikelihood "Gamma" () [0] (fun _ _ => true) (fun _ _ => 1) true
        [fun _ => none] = Except.ok [0] :=
  leaf_fully_marginalized_row "Gamma" () [0] (fun _ _ => true) (fun _ _ => 1) true
    (fun _ => none) (by decide)

/-! ## Claim C8: a fully observed row outside the support aborts
evaluation with a support-violation error naming the family -/

/-- Claim C8: with `check_support` at its default `true`, a data row whose
scope columns are all observed and which violates the distribution's
support predicate makes the whole `log_likelihood` call fail with the
support-violation error naming the distribution family: no partial result
is returned. -/
theorem leaf_support_violation {Θ : Type} (fam : String) (θ : Θ)
    (scope : List ℕ) (supp : Θ → ℝ → Bool) (dens : Θ → List (Option ℝ) → ℝ)
    (data : List Row) (row : Row) (c : ℕ) (x : ℝ)
    (hrow : row ∈ data) (hc : c ∈ scope) (hx : row c = some x)
    (hobs : ∀ c₂ ∈ scope, (row c₂).isSome)
    (hviol : supp θ x = false) :
    leafLogLikelihood fam θ scope supp dens true data
      = Except.error ("Encountered data instances that are not in the support of the "
          ++ fam ++ " distribution.") := by
  unfold leafLogLikelihood
  have hbad : (!isMargRow scope row && !rowInSupport θ supp scope row) = true := by
    have h₁ : isMargRow scope row = false := by
      apply Bool.eq_false_iff.mpr
      intro hall
      rw [isMargRow, scopeVals, List.all_eq_true] at hall
      have := hall (row c) (List.mem_map.mpr ⟨c, hc, rfl⟩)
      rw [hx] at this
      simp at this
    have h₂ : rowInSupport θ supp scope row = false := by
      apply Bool.eq_false_iff.mpr
      intro hall
      rw [rowInSupport, scopeVals, List.all_eq_true] at hall
      have := hall (row c) (List.mem_map.mpr ⟨c, hc, rfl⟩)
      rw [hx] at this
      simp [hviol] at this
    rw [h₁, h₂]
    rfl
  have hany : data.any (fun row => !isMargRow scope row && !rowInSupport θ supp scope row)
      = true :=
    List.any_eq_true.mpr ⟨row, hrow, hbad⟩
  rw [hany]
  rfl

/-- Witness for C8: a Gamma-style leaf (support `0 < x`) on the observed
out-of-support value `-1`. -/
theorem leaf_support_violation_witness :
    leafLogLikelihood "Gamma" () [0] (fun _ x => decide (0 < x)) (fun _ _ => 1) true
        [fun _ => some (-1)]
      = Except.error ("Encountered data instances that are not in the support of the "
          ++ "Gamma" ++ " distribution.") :=
  leaf_support_violation "Gamma" () [0] (fun _ x => decide (0 < x)) (fun _ _ => 1)
    [fun _ => some (-1)] (fun _ => some (-1)) 0 (-1)
    (by simp) (by simp) rfl (by intro c₂ _; rfl) (by norm_num)

/-! ## Conditional parameter retrieval
(torch/structure/nodes/leaves/parametric/cond_exponential.py,
`CondExponential.retrieve_params`)

The dispatch context's per-node argument store entry for the node is
modelled by `CondArgsEntry` (the dict `dispatch_ctx.args[self]`): an
optional explicit value for the parameter `l` and an optional callable
under the key `cond_f`.  `ctxArgs = none` models the node having no entry
in `dispatch_ctx.args` at all.  The node's own `cond_f` attached at
construction is `nodeCondF`.  The data batch is abstracted as a type
parameter on which the callables operate; the callables return the value
they supply for `l` (the Python callables return a dict from which `l` is
selected).  Floating-point values are modelled as reals, so the
`isfinite` part of the validity check is vacuous. -/

/-- Entry of `dispatch_ctx.args` for one node. -/
structure CondArgsEntry (T : Type) where
  lVal : Option ℝ
  condF : Option (T → ℝ)

/-- Embedding of `CondExponential.retrieve_params`, following the code
line by line: the two local variables `l` and `cond_f` are initialized to
`None`; if the node has an args entry, `l` is taken from it when present,
otherwise `cond_f` is taken from it when present; only when the node has
no args entry (`elif`) is the node's own `cond_f` consulted; if both
remain `None` a configuration error is raised; otherwise `l` is computed
(calling `cond_f` on the data batch if needed) and validated to be
positive. -/
noncomputable def retrieveParamsCondExponential {T : Type}
    (ctxArgs : Option (CondArgsEntry T)) (nodeCondF : Option (T → ℝ))
    (data : T) : Except String ℝ :=
  let lv : Option ℝ :=
    match ctxArgs with
    | some a => a.lVal
    | none => none
  let cf : Option (T → ℝ) :=
    match ctxArgs with
    | some a => match a.lVal with
      | some _ => none
      | none => a.condF
    | none => nodeCondF
  match lv, cf with
  | none, none =>
    Except.error "CondExponential requires either l or cond_f to retrieve l to be specified."
  | _, _ =>
    let l : ℝ :=
      match lv with
      | some v => v
      | none => match cf with
        | some f => f data
        | none => 0
    if l ≤ 0 then
      Except.error "Value of l for conditional Exponential distribution must be greater than 0."
    else Except.ok l

/-- Modelled from the spec: the parameter resolution contract of §4.1 as
claim C7 states it — "(a) an explicit override value stored in args[node]
for this operation's parameter name, (b) a callable stored in
args[node][cond_f] invoked with the data batch, (c) a callable attached to
the node itself at construction time, else fails with a configuration
error", each source tried in priority order whenever it is available, with
the same positivity validation of the resolved value. -/
noncomputable def specResolveParam {T : Type}
    (ctxArgs : Option (CondArgsEntry T)) (nodeCondF : Option (T → ℝ))
    (data : T) : Except String ℝ :=
  let validate : ℝ → Except String ℝ := fun l =>
    if l ≤ 0 then
      Except.error "Value of l for conditional Exponential distribution must be greater than 0."
    else Except.ok l
  match ctxArgs.bind (fun a => a.lVal) with
  | some v => validate v
  | none =>
    match ctxArgs.bind (fun a => a.condF) with
    | some f => validate (f data)
    | none =>
      match nodeCondF with
      | some f => validate (f data)
      | none =>
        Except.error "CondExponential requires either l or cond_f to retrieve l to be specified."

/-- Counterexample to claim C7: when the node has an entry in
`dispatch_ctx.args` that contains neither the parameter nor `cond_f`, the
code raises a configuration error even though the node's own `cond_f`
(source (c) of the claim) is available and would resolve the parameter. -/
theorem retrieveParams_priority_counterexample :
    retrieveParamsCondExponential (T := Unit)
        (some ⟨none, none⟩) (some (fun _ => 1)) ()
      = Except.error
          "CondExponential requires either l or cond_f to retrieve l to be specified."
    ∧ specResolveParam (T := Unit) (some ⟨none, none⟩) (some (fun _ => 1)) ()
      = Except.ok 1
    ∧ retrieveParamsCondExponential (T := Unit)
        (some ⟨none, none⟩) (some (fun _ => 1)) ()
      ≠ specResolveParam (T := Unit) (some ⟨none, none⟩) (some (fun _ => 1)) () := by
  refine ⟨rfl, ?_, ?_⟩
  · unfold specResolveParam
    norm_num
  · intro h
    rw [show specResolveParam (T := Unit) (some ⟨none, none⟩) (some (fun _ => 1)) ()
        = Except.ok 1 from by unfold specResolveParam; norm_num] at h
    exact absurd h (by simp [retrieveParamsCondExponential])

/-- Claim C7 as amended: `retrieve_params` resolves the parameter as
(a) the explicit value in the node's args entry, else (b) the `cond_f`
callable of the node's args entry invoked on the data, else — only when
the node has no args entry at all — (c) the node's own `cond_f`; if the
node has an args entry containing neither source, or no source exists, it
raises a configuration error.  Equivalently: when the node has an args
entry, the retrieval equals the spec resolution with the node's own
`cond_f` masked out; when it has none, it equals the spec resolution. -/
theorem retrieveParams_amended {T : Type}
    (ctxArgs : Option (CondArgsEntry T)) (nodeCondF : Option (T → ℝ))
    (data : T) :
    retrieveParamsCondExponential ctxArgs nodeCondF data
      = match ctxArgs with
        | some _ => specResolveParam ctxArgs none data
        | none => specResolveParam ctxArgs nodeCondF data := by
  cases ctxArgs with
  | none =>
    cases nodeCondF with
    | none => rfl
    | some f => rfl
  | some a =>
    cases hl : a.lVal with
    | some v =>
      simp [retrieveParamsCondExponential, specResolveParam, hl]
    | none =>
      cases hf : a.condF with
      | some f => simp [retrieveParamsCondExponential, specResolveParam, hl, hf]
      | none => simp [retrieveParamsCondExponential, specResolveParam, hl, hf]

/-- Witness for the amended C7 at a concrete input: an args entry carrying
an explicit value `l = 2` overrides the node's own `cond_f`. -/
theorem retrieveParams_amended_witness :
    retrieveParamsCondExponential (T := Unit)
        (some ⟨some 2, some (fun _ => 5)⟩) (some (fun _ => 7)) ()
      = match (some ⟨some 2, some (fun _ => 5)⟩ : Option (CondArgsEntry Unit)) with
        | some _ => specResolveParam (T := Unit)
            (some ⟨some 2, some (fun _ => 5)⟩) none ()
        | none => specResolveParam (T := Unit)
            (some ⟨some 2, some (fun _ => 5)⟩) (some (fun _ => 7)) () :=
  retrieveParams_amended (some ⟨some 2, some (fun _ => 5)⟩) (some (fun _ => 7)) ()

/-! ## Claim C5: pruning collapse of a product node -/

/-- Claim C5: for a product node whose query scope partially overlaps the
elimination set, if exactly one child survives the recursive
marginalization and `prune = true`, `marginalize` returns that surviving
child itself (not a product wrapping it); with `prune = false` it returns
a product node whose children are exactly the surviving marginalized
children, even when there is only one
(torch/structure/nodes/node.py, `marginalize(SPNProductNode)`). -/
theorem prodNode_prune_collapse (cs : List Circuit) (M : Finset ℕ)
    (hnotfull : ¬ qscope (.prodN cs) ⊆ M)
    (hoverlap : qscope (.prodN cs) ∩ M ≠ ∅) :
    (∀ c₂, margList cs M true = [c₂] → marginalize (.prodN cs) M true = some c₂)
    ∧ marginalize (.prodN cs) M false
        = some (.prodN (margList cs M false)) := by
  constructor
  · intro c₂ hone
    rw [marginalize]
    simp only [if_neg hnotfull, if_neg hoverlap, hone]
    rfl
  · rw [marginalize]
    simp only [if_neg hnotfull, if_neg hoverlap]
    rfl

/-- Witness for C5: marginalizing `Product(leaf{0}, leaf{1})` by `{0}`
leaves exactly the child over `{1}`; with `prune = true` that child is
returned directly, with `prune = false` a one-child product. -/
theorem prodNode_prune_collapse_witness :
    marginalize (.prodN [.leaf [0], .leaf [1]]) {0} true = some (.leaf [1])
    ∧ marginalize (.prodN [.leaf [0], .leaf [1]]) {0} false
        = some (.prodN (margList [.leaf [0], .leaf [1]] {0} false)) := by
  have h := prodNode_prune_collapse [Circuit.leaf [0], Circuit.leaf [1]] {0}
    (by decide) (by decide)
  exact ⟨h.1 (Circuit.leaf [1]) (by rfl), h.2⟩

/-! ## Sampling for multivariate Gaussian leaves
(base/sampling/nodes/leaves/parametric/multivariate_gaussian.py)

The data batch is a two-dimensional array `Mat` (row index, column index);
`none` is NaN.  The leaf models the `d` variables `q 0, …, q (d-1)`
(`leaf.scope.query`) with covariance matrix `cov`; the random draws of
`leaf.dist.rvs` are abstracted by the oracle `draw mask k`, the `k`-th
unconditional joint sample drawn for the group of rows with missingness
pattern `mask`.  `sample` first checks the instance ids against the number
of data rows, computes the NaN pattern of every requested row over the
scope columns once (`nan_data`), and then loops over the distinct
patterns: a fully observed group is skipped, a fully missing group is
overwritten with joint samples on the scope columns, and a partially
missing group is filled by the Doucet conditional-sampling shift.  Each
group assignment is one vectorized numpy store, modelled as a simultaneous
functional update whose right-hand side reads the pre-assignment array. -/

/-- A data batch: row index → column index → cell (`none` is NaN). -/
def Mat : Type := ℕ → ℕ → Option ℝ

/-- Missingness pattern of row `i` over the scope columns
(`nan_data = np.isnan(data[np.ix_(instance_ids, leaf.scope.query)])`). -/
def rowPat (d : ℕ) (q : Fin d → ℕ) (m : Mat) (i : ℕ) : Fin d → Bool :=
  fun j => (m i (q j)).isNone

/-- The matrix `inv(Σ_oo) ⬝ Σ_om` of the conditional shift
(`marg_cov_inv @ cond_cov` in the code), with rows the observed scope
positions and columns the missing scope positions of the pattern. -/
noncomputable def condCoeff {d : ℕ} (cov : Matrix (Fin d) (Fin d) ℝ)
    (mask : Fin d → Bool) :
    Matrix {a : Fin d // mask a = false} {b : Fin d // mask b = true} ℝ :=
  (cov.submatrix (Subtype.val (p := fun a => mask a = false))
      (Subtype.val (p := fun a => mask a = false)))⁻¹
    * cov.submatrix (Subtype.val (p := fun a => mask a = false))
        (Subtype.val (p := fun b => mask b = true))

/-- Value written for one missing position `j` of one row:
`s_j + Σ_a (x_a − s_a)·(inv(Σ_oo)·Σ_om)[a, j]`, with `s` the row's joint
sample and `x` its observed sub-vector. -/
noncomputable def condValue {d : ℕ} (cov : Matrix (Fin d) (Fin d) ℝ)
    (mask : Fin d → Bool) (xobs : {a : Fin d // mask a = false} → ℝ)
    (s : Fin d → ℝ) (j : {b : Fin d // mask b = true}) : ℝ :=
  s j.1 + ∑ a : {a : Fin d // mask a = false},
    (xobs a - s a.1) * condCoeff cov mask a j

/-- One iteration of the `for nan_mask in np.unique(nan_data, axis=0)`
loop.  `pat` is the pattern table computed before the loop; `m` is the
current data array.  Note that in the fully-missing branch the store
targets the scope columns `leaf.scope.query`, while in the partial branch
the numpy store `data[np.ix_(sampling_ids, ~cond_mask)] = …` (and the
reads `data[np.ix_(sampling_ids, cond_mask)]`) index the columns of the
whole data array by the boolean masks, i.e. by the *positions* of the
scope variables, not by the scope's column ids `q`. -/
noncomputable def sampleMVGStep {d : ℕ} (q : Fin d → ℕ)
    (cov : Matrix (Fin d) (Fin d) ℝ) (draw : (Fin d → Bool) → ℕ → Fin d → ℝ)
    (instanceIds : List ℕ) (pat : ℕ → Fin d → Bool) (m : Mat)
    (mask : Fin d → Bool) : Mat :=
  let ids := instanceIds.filter (fun i => pat i = mask)
  if ∀ j, mask j = false then
    m
  else if ∀ j, mask j = true then
    fun i c =>
      if i ∈ ids then
        if h : ∃ j : Fin d, q j = c then some (draw mask (ids.indexOf i) h.choose)
        else m i c
      else m i c
  else
    fun i c =>
      if i ∈ ids then
        if h : ∃ j : Fin d, (j : ℕ) = c ∧ mask j = true then
          some (condValue cov mask
            (fun a => (m i (a.1 : ℕ)).getD 0)
            (draw mask (ids.indexOf i))
            ⟨h.choose, h.choose_spec.2⟩)
        else m i c
      else m i c

/-- Embedding of `sample(MultivariateGaussian)` from
base/sampling/nodes/leaves/parametric/multivariate_gaussian.py. -/
noncomputable def sampleMultivariateGaussian {d : ℕ} (q : Fin d → ℕ)
    (cov : Matrix (Fin d) (Fin d) ℝ) (draw : (Fin d → Bool) → ℕ → Fin d → ℝ)
    (nrows : ℕ) (instanceIds : List ℕ) (data : Mat) : Except String Mat :=
  if instanceIds.any (fun i => decide (nrows ≤ i)) then
    Except.error "Some instance ids are out of bounds for data tensor."
  else
    Except.ok (((instanceIds.map (rowPat d q data)).dedup).foldl
      (sampleMVGStep q cov draw instanceIds (rowPat d q data)) data)

/-! ## Claim C9: out-of-bounds instance ids abort sampling before any
write -/

/-- Claim C9: if any instance id in the sampling context is ≥ the number
of rows of the data batch, `sample` fails with the out-of-bounds error
before writing any sampled value (the check precedes the sampling loop,
so the data batch is returned unmodified inside the error path — here, no
result at all is produced). -/
theorem sample_instance_id_out_of_bounds {d : ℕ} (q : Fin d → ℕ)
    (cov : Matrix (Fin d) (Fin d) ℝ) (draw : (Fin d → Bool) → ℕ → Fin d → ℝ)
    (nrows : ℕ) (instanceIds : List ℕ) (data : Mat) (i : ℕ)
    (hi : i ∈ instanceIds) (hge : nrows ≤ i) :
    sampleMultivariateGaussian q cov draw nrows instanceIds data
      = Except.error "Some instance ids are out of bounds for data tensor." := by
  unfold sampleMultivariateGaussian
  have : instanceIds.any (fun i => decide (nrows ≤ i)) = true :=
    List.any_eq_true.mpr ⟨i, hi, by simpa using hge⟩
  rw [this]
  rfl

/-- Witness for C9: instance id 1 against a data batch of 1 row (row
indices are 0-based, so id `N` is out of range for `N` rows). -/
theorem sample_instance_id_out_of_bounds_witness :
    sampleMultivariateGaussian (d := 1) (fun _ => 0) 1 (fun _ _ _ => 0) 1 [1]
        (fun _ _ => none)
      = Except.error "Some instance ids are out of bounds for data tensor." :=
  sample_instance_id_out_of_bounds (fun _ => 0) 1 (fun _ _ _ => 0) 1 [1]
    (fun _ _ => none) 1 (by simp) (by norm_num)

/-! ## Claim C10: the torch-backend unconditional MultivariateGaussian has
no sampling implementation -/

/-- Embedding of `sample(MultivariateGaussian)` from
torch/sampling/nodes/leaves/parametric/multivariate_gaussian.py: the body
is `raise NotImplementedError()`. -/
def sampleTorchMultivariateGaussian (data : Mat) (nrows : ℕ)
    (instanceIds : List ℕ) : Except String Mat :=
  Except.error "NotImplementedError"

/-- Claim C10: in the torch backend, `sample` on an unconditional
`MultivariateGaussian` leaf raises `NotImplementedError` for every data
batch and sampling context. -/
theorem sampleTorch_mvg_not_implemented (data : Mat) (nrows : ℕ)
    (instanceIds : List ℕ) :
    sampleTorchMultivariateGaussian data nrows instanceIds
      = Except.error "NotImplementedError" := rfl

/-! ## Claim C6: conditional sampling of a partially observed group

For a leaf whose query scope is the first `d` data columns
(`scope.query = [0, …, d-1]`, the only case the repository's tests
exercise), the partial branch writes into the missing scope columns the
claimed values `s_m + (x_o − s_o)·(inv(Σ_oo)·Σ_om)`.  For any other
scope, however, the boolean-mask stores of the partial branch index the
whole data array by scope *positions* instead of the scope's column ids:
the conditional values land outside the missing scope columns (and can
overwrite observed values), contradicting the claim and §4.4 of the
specification, while the fully-missing branch of the same function
correctly targets `leaf.scope.query`.  The theorem below evaluates the
embedded code at such an input: scope `[1, 2]`, one row with column 1
observed and column 2 missing — the missing scope column 2 receives no
value at all. -/

/-- Failing input for claim C6: a multivariate Gaussian leaf over columns
`[1, 2]` (identity covariance), one data row with column 1 observed
(value 5) and column 2 missing.  The partial-pattern branch leaves the
missing scope column 2 untouched (`none` after sampling), because its
numpy stores treat the scope positions 0 and 1 as global column indices. -/
theorem sampleMVG_partial_write_misses_scope_column :
    ∃ final,
      sampleMultivariateGaussian (d := 2) ![1, 2] 1 (fun _ _ _ => 0) 1 [0]
          (fun _ c => if c = 2 then none else some 5) = Except.ok final
      ∧ final 0 2 = none := by
  exact ⟨_, rfl, rfl⟩

/-! ## Composition of the sum/product marginalization rewrite

`marginalize(marginalize(C, A), B)` versus `marginalize(C, A ∪ B)`.  The
composition on the left is the `Option.bind` of the two calls (`None`
propagates, as a fully marginalized circuit admits no further
marginalization).  Over the `Circuit` model — where leaf parameters are
abstracted away — the two sides are structurally equal for every circuit
(`marg_comp` below): the sum/product graph-rewrite layer itself composes,
and in particular the scopes of the two results always agree.  Claim C4
nevertheless fails on the source, because the parameter slicing of
`MultivariateGaussian.marginalize` does not compose; that defect is
embedded and exhibited after `marg_comp`. -/

theorem marginalize_leaf_eq (s : List ℕ) (M : Finset ℕ) (p : Bool) :
    marginalize (.leaf s) M p
      = if (s.filter fun v => v ∉ M).isEmpty then none
        else some (.leaf (s.filter fun v => v ∉ M)) := by
  rw [marginalize]

theorem marginalize_sum_eq (cs : List Circuit) (w : List ℝ) (M : Finset ℕ) (p : Bool) :
    marginalize (.sumN cs w) M p
      = if qscopeList cs ⊆ M then none
        else if qscopeList cs ∩ M = ∅ then some (.sumN cs w)
        else some (.sumN (margList cs M p) w) := by
  rw [marginalize]
  rfl

theorem marginalize_prod_eq (cs : List Circuit) (M : Finset ℕ) (p : Bool) :
    marginalize (.prodN cs) M p
      = if qscopeList cs ⊆ M then none
        else if qscopeList cs ∩ M = ∅ then some (.prodN cs)
        else if p ∧ (margList cs M p).length = 1 then (margList cs M p).head?
        else some (.prodN (margList cs M p)) := by
  rw [marginalize]
  rfl

/-- A node is fully marginalized (`None`) exactly when its query scope is
contained in the marginalization set. -/
theorem marg_none_iff (c : Circuit) (M : Finset ℕ) (p : Bool) :
    marginalize c M p = none ↔ qscope c ⊆ M := by
  cases c with
  | leaf s =>
    rw [marginalize_leaf_eq]
    constructor
    · intro h
      split at h
      · next hemp =>
        intro x hx
        rw [List.isEmpty_iff, List.filter_eq_nil_iff] at hemp
        by_contra hxM
        exact hemp x (by simpa [qscope] using hx) (by simpa using hxM)
      · exact absurd h (by simp)
    · intro hsub
      have : (s.filter fun v => v ∉ M).isEmpty = true := by
        rw [List.isEmpty_iff, List.filter_eq_nil_iff]
        intro a ha
        have haM : a ∈ M := hsub (by simpa [qscope] using ha)
        simp [haM]
      rw [this]
      rfl
  | sumN cs w =>
    rw [marginalize_sum_eq]
    show _ ↔ qscopeList cs ⊆ M
    by_cases h : qscopeList cs ⊆ M
    · simp [h]
    · rw [if_neg h]
      constructor
      · intro hcontra
        split at hcontra <;> exact absurd hcontra (by simp)
      · intro hsub
        exact absurd hsub h
  | prodN cs =>
    rw [marginalize_prod_eq]
    show _ ↔ qscopeList cs ⊆ M
    by_cases h : qscopeList cs ⊆ M
    · simp [h]
    · rw [if_neg h]
      constructor
      · intro hcontra
        split at hcontra
        · exact absurd hcontra (by simp)
        · split at hcontra
          · next hp =>
            obtain ⟨a, ha⟩ := List.length_eq_one.mp hp.2
            rw [ha] at hcontra
            exact absurd hcontra (by simp)
          · exact absurd hcontra (by simp)
      · intro hsub
        exact absurd hsub h

theorem qscope_margList (cs : List Circuit) (M : Finset ℕ) (p : Bool)
    (IH : ∀ c ∈ cs, ∀ c₂, marginalize c M p = some c₂ → qscope c₂ = qscope c \ M) :
    qscopeList (margList cs M p) = qscopeList cs \ M := by
  induction cs with
  | nil => simp [margList, qscopeList]
  | cons c cs ih =>
    have ihtail := ih (fun c₂ hc₂ => IH c₂ (List.mem_cons_of_mem _ hc₂))
    rw [margList]
    cases h : marginalize c M p with
    | none =>
      have hsub : qscope c ⊆ M := (marg_none_iff c M p).mp h
      show qscopeList (margList cs M p) = qscopeList (c :: cs) \ M
      rw [ihtail, qscopeList, Finset.union_sdiff_distrib,
        Finset.sdiff_eq_empty_iff_subset.mpr hsub, Finset.empty_union]
    | some c₂ =>
      show qscopeList (c₂ :: margList cs M p) = qscopeList (c :: cs) \ M
      rw [qscopeList, qscopeList, ihtail, IH c (List.mem_cons_self c cs) c₂ h,
        Finset.union_sdiff_distrib]

/-- The scope of a partially or trivially marginalized node is the original
query scope minus the marginalized variables. -/
theorem qscope_marg_some : ∀ c (M : Finset ℕ) (p : Bool) (c₂ : Circuit),
    marginalize c M p = some c₂ → qscope c₂ = qscope c \ M := by
  intro c
  induction c using Circuit.inductionOn with
  | hleaf s =>
    intro M p c₂ h
    rw [marginalize_leaf_eq] at h
    split at h
    · exact absurd h (by simp)
    · have hc₂ : c₂ = .leaf (s.filter fun v => v ∉ M) := by
        injection h with h
        exact h.symm
      subst hc₂
      show (s.filter fun v => v ∉ M).toFinset = s.toFinset \ M
      ext x
      simp [List.mem_filter]
  | hsum cs w ih =>
    intro M p c₂ h
    rw [marginalize_sum_eq] at h
    split at h
    · exact absurd h (by simp)
    · split at h
      · next hdisj =>
        have hc₂ : c₂ = .sumN cs w := by injection h with h; exact h.symm
        subst hc₂
        show qscopeList cs = qscopeList cs \ M
        ext x
        simp only [Finset.mem_sdiff]
        constructor
        · intro hx
          refine ⟨hx, fun hxM => ?_⟩
          have hmem : x ∈ qscopeList cs ∩ M := Finset.mem_inter.mpr ⟨hx, hxM⟩
          rw [hdisj] at hmem
          exact absurd hmem (Finset.not_mem_empty x)
        · exact fun hx => hx.1
      · have hc₂ : c₂ = .sumN (margList cs M p) w := by injection h with h; exact h.symm
        subst hc₂
        exact qscope_margList cs M p (fun c hc => ih c hc M p)
  | hprod cs ih =>
    intro M p c₂ h
    rw [marginalize_prod_eq] at h
    split at h
    · exact absurd h (by simp)
    · split at h
      · next hdisj =>
        have hc₂ : c₂ = .prodN cs := by injection h with h; exact h.symm
        subst hc₂
        show qscopeList cs = qscopeList cs \ M
        ext x
        simp only [Finset.mem_sdiff]
        constructor
        · intro hx
          refine ⟨hx, fun hxM => ?_⟩
          have hmem : x ∈ qscopeList cs ∩ M := Finset.mem_inter.mpr ⟨hx, hxM⟩
          rw [hdisj] at hmem
          exact absurd hmem (Finset.not_mem_empty x)
        · exact fun hx => hx.1
      · have hlist : qscopeList (margList cs M p) = qscopeList cs \ M :=
          qscope_margList cs M p (fun c hc => ih c hc M p)
        split at h
        · next hp =>
          obtain ⟨a, ha⟩ := List.length_eq_one.mp hp.2
          rw [ha] at h
          have hc₂ : c₂ = a := by injection h with h; exact h.symm
          subst hc₂
          rw [ha, qscopeList, qscopeList, Finset.union_empty] at hlist
          exact hlist
        · have hc₂ : c₂ = .prodN (margList cs M p) := by injection h with h; exact h.symm
          subst hc₂
          exact hlist

/-- Two marginalization sets with the same intersection with a node's
query scope marginalize the node identically. -/
theorem marg_inter_congr : ∀ c (M M₂ : Finset ℕ) (p : Bool),
    qscope c ∩ M = qscope c ∩ M₂ → marginalize c M p = marginalize c M₂ p := by
  intro c
  induction c using Circuit.inductionOn with
  | hleaf s =>
    intro M M₂ p hMM
    have hpt : ∀ v ∈ s, (v ∈ M ↔ v ∈ M₂) := by
      intro v hv
      have hv₂ : v ∈ s.toFinset := List.mem_toFinset.mpr hv
      constructor
      · intro hvM
        have : v ∈ s.toFinset ∩ M₂ := by
          rw [show s.toFinset ∩ M₂ = qscope (.leaf s) ∩ M₂ from rfl, ← hMM]
          exact Finset.mem_inter.mpr ⟨hv₂, hvM⟩
        exact (Finset.mem_inter.mp this).2
      · intro hvM₂
        have : v ∈ s.toFinset ∩ M := by
          rw [show s.toFinset ∩ M = qscope (.leaf s) ∩ M from rfl, hMM]
          exact Finset.mem_inter.mpr ⟨hv₂, hvM₂⟩
        exact (Finset.mem_inter.mp this).2
    have hfilter : (s.filter fun v => v ∉ M) = s.filter fun v => v ∉ M₂ := by
      apply List.filter_congr
      intro v hv
      simp [hpt v hv]
    rw [marginalize_leaf_eq, marginalize_leaf_eq, hfilter]
  | hsum cs w ih =>
    intro M M₂ p hMM
    have hQ : qscopeList cs ∩ M = qscopeList cs ∩ M₂ := hMM
    have hsub : qscopeList cs ⊆ M ↔ qscopeList cs ⊆ M₂ := by
      rw [← Finset.inter_eq_left, ← Finset.inter_eq_left, hQ]
    have hlist : margList cs M p = margList cs M₂ p := by
      rw [margList_eq_filterMap, margList_eq_filterMap]
      apply List.filterMap_congr
      intro c hc
      apply ih c hc
      ext x
      simp only [Finset.mem_inter]
      constructor
      · intro hx
        refine ⟨hx.1, ?_⟩
        have : x ∈ qscopeList cs ∩ M :=
          Finset.mem_inter.mpr ⟨mem_qscopeList.mpr ⟨c, hc, hx.1⟩, hx.2⟩
        rw [hQ] at this
        exact (Finset.mem_inter.mp this).2
      · intro hx
        refine ⟨hx.1, ?_⟩
        have : x ∈ qscopeList cs ∩ M₂ :=
          Finset.mem_inter.mpr ⟨mem_qscopeList.mpr ⟨c, hc, hx.1⟩, hx.2⟩
        rw [← hQ] at this
        exact (Finset.mem_inter.mp this).2
    rw [marginalize_sum_eq, marginalize_sum_eq, hlist, hQ]
    by_cases h : qscopeList cs ⊆ M
    · rw [if_pos h, if_pos (hsub.mp h)]
    · rw [if_neg h, if_neg (fun h₂ => h (hsub.mpr h₂))]
  | hprod cs ih =>
    intro M M₂ p hMM
    have hQ : qscopeList cs ∩ M = qscopeList cs ∩ M₂ := hMM
    have hsub : qscopeList cs ⊆ M ↔ qscopeList cs ⊆ M₂ := by
      rw [← Finset.inter_eq_left, ← Finset.inter_eq_left, hQ]
    have hlist : margList cs M p = margList cs M₂ p := by
      rw [margList_eq_filterMap, margList_eq_filterMap]
      apply List.filterMap_congr
      intro c hc
      apply ih c hc
      ext x
      simp only [Finset.mem_inter]
      constructor
      · intro hx
        refine ⟨hx.1, ?_⟩
        have : x ∈ qscopeList cs ∩ M :=
          Finset.mem_inter.mpr ⟨mem_qscopeList.mpr ⟨c, hc, hx.1⟩, hx.2⟩
        rw [hQ] at this
        exact (Finset.mem_inter.mp this).2
      · intro hx
        refine ⟨hx.1, ?_⟩
        have : x ∈ qscopeList cs ∩ M₂ :=
          Finset.mem_inter.mpr ⟨mem_qscopeList.mpr ⟨c, hc, hx.1⟩, hx.2⟩
        rw [← hQ] at this
        exact (Finset.mem_inter.mp this).2
    rw [marginalize_prod_eq, marginalize_prod_eq, hlist, hQ]
    by_cases h : qscopeList cs ⊆ M
    · rw [if_pos h, if_pos (hsub.mp h)]
    · rw [if_neg h, if_neg (fun h₂ => h (hsub.mpr h₂))]

theorem filterMap_bind_of_singleton {α β γ : Type} (f : α → Option β) (g : β → Option γ)
    (l : List α) (y : β) (h : l.filterMap f = [y]) :
    l.filterMap (fun a => (f a).bind g) = (g y).toList := by
  induction l with
  | nil => simp at h
  | cons a l ih =>
    cases hfa : f a with
    | none =>
      rw [List.filterMap_cons_none hfa] at h
      rw [List.filterMap_cons]
      simp only [hfa, Option.none_bind]
      exact ih h
    | some z =>
      rw [List.filterMap_cons_some hfa] at h
      have hz : z = y := by injection h
      have hrest : l.filterMap f = [] := by injection h
      subst hz
      rw [List.filterMap_cons]
      simp only [hfa, Option.some_bind]
      have hnil : l.filterMap (fun a => (f a).bind g) = [] := by
        rw [List.filterMap_eq_nil_iff]
        intro a ha
        rw [List.filterMap_eq_nil_iff.mp hrest a ha]
        rfl
      cases hg : g z with
      | none => simp [hg, hnil]
      | some t => simp [hg, hnil]

/-- When no surviving variable of the first marginalization is eliminated
by the second, marginalizing the children by `A ∪ B` equals marginalizing
them by `A` alone. -/
theorem margList_union_eq_of_disjoint (cs : List Circuit) (A B : Finset ℕ) (p : Bool)
    (h2 : (qscopeList cs \ A) ∩ B = ∅) :
    margList cs (A ∪ B) p = margList cs A p := by
  rw [margList_eq_filterMap, margList_eq_filterMap]
  apply List.filterMap_congr
  intro c hc
  apply marg_inter_congr
  ext x
  simp only [Finset.mem_inter, Finset.mem_union]
  constructor
  · rintro ⟨hx, hAB⟩
    refine ⟨hx, ?_⟩
    rcases hAB with h | h
    · exact h
    · by_contra hxA
      have hmem : x ∈ (qscopeList cs \ A) ∩ B :=
        Finset.mem_inter.mpr
          ⟨Finset.mem_sdiff.mpr ⟨mem_qscopeList.mpr ⟨c, hc, hx⟩, hxA⟩, h⟩
      rw [h2] at hmem
      exact absurd hmem (Finset.not_mem_empty x)
  · rintro ⟨hx, hA⟩
    exact ⟨hx, Or.inl hA⟩

/-- Composing the child marginalizations list-wise. -/
theorem margList_comp (cs : List Circuit) (A B : Finset ℕ) (p : Bool)
    (IH : ∀ c ∈ cs, (marginalize c A p).bind (fun c₀ => marginalize c₀ B p)
        = marginalize c (A ∪ B) p) :
    margList (margList cs A p) B p = margList cs (A ∪ B) p := by
  rw [margList_eq_filterMap, margList_eq_filterMap, margList_eq_filterMap,
    List.filterMap_filterMap]
  exact List.filterMap_congr IH

theorem sdiff_subset_union_iff {Q A B : Finset ℕ} : Q \ A ⊆ B ↔ Q ⊆ A ∪ B := by
  constructor
  · intro h x hx
    by_cases hxA : x ∈ A
    · exact Finset.mem_union_left _ hxA
    · exact Finset.mem_union_right _ (h (Finset.mem_sdiff.mpr ⟨hx, hxA⟩))
  · intro h x hx
    rw [Finset.mem_sdiff] at hx
    rcases Finset.mem_union.mp (h hx.1) with h₂ | h₂
    · exact absurd h₂ hx.2
    · exact h₂

/-- Structural composition law: marginalizing by `A` and then by `B`
produces exactly the circuit obtained by marginalizing by `A ∪ B` at once
(with `None` propagating through the composition). -/
theorem marg_comp : ∀ c (A B : Finset ℕ) (p : Bool),
    (marginalize c A p).bind (fun c₀ => marginalize c₀ B p)
      = marginalize c (A ∪ B) p := by
  intro c
  induction c using Circuit.inductionOn with
  | hleaf s =>
    intro A B p
    have hff : (s.filter fun v => v ∉ A).filter (fun v => v ∉ B)
        = s.filter fun v => v ∉ A ∪ B := by
      rw [List.filter_filter]
      apply List.filter_congr
      intro v hv
      by_cases hA : v ∈ A <;> by_cases hB : v ∈ B <;> simp [hA, hB]
    rw [marginalize_leaf_eq s A p]
    by_cases hemp : (s.filter fun v => v ∉ A).isEmpty
    · have hemp₂ : (s.filter fun v => v ∉ A ∪ B).isEmpty := by
        rw [List.isEmpty_iff] at hemp ⊢
        rw [← hff, hemp]
        rfl
      rw [if_pos hemp, Option.none_bind, marginalize_leaf_eq, if_pos hemp₂]
    · rw [if_neg hemp, Option.some_bind, marginalize_leaf_eq, marginalize_leaf_eq, hff]
  | hsum cs w ih =>
    intro A B p
    by_cases hA1 : qscopeList cs ⊆ A
    · rw [marginalize_sum_eq, if_pos hA1, Option.none_bind, marginalize_sum_eq,
        if_pos (hA1.trans Finset.subset_union_left)]
    · by_cases hA2 : qscopeList cs ∩ A = ∅
      · rw [marginalize_sum_eq, if_neg hA1, if_pos hA2, Option.some_bind]
        exact marg_inter_congr (.sumN cs w) B (A ∪ B) p (by
          show qscopeList cs ∩ B = qscopeList cs ∩ (A ∪ B)
          rw [Finset.inter_union_distrib_left, hA2, Finset.empty_union])
      · rw [marginalize_sum_eq, if_neg hA1, if_neg hA2, Option.some_bind]
        have hQ2 : qscopeList (margList cs A p) = qscopeList cs \ A :=
          qscope_margList cs A p (fun c _ c₂ h => qscope_marg_some c A p c₂ h)
        rw [marginalize_sum_eq, marginalize_sum_eq, hQ2]
        by_cases h1 : qscopeList cs \ A ⊆ B
        · rw [if_pos h1, if_pos (sdiff_subset_union_iff.mp h1)]
        · rw [if_neg h1, if_neg (fun hc => h1 (sdiff_subset_union_iff.mpr hc))]
          have hABne : ¬ qscopeList cs ∩ (A ∪ B) = ∅ := by
            intro hc
            apply hA2
            rw [Finset.inter_union_distrib_left] at hc
            exact (Finset.union_eq_empty.mp hc).1
          rw [if_neg hABne]
          by_cases h2 : (qscopeList cs \ A) ∩ B = ∅
          · rw [if_pos h2, margList_union_eq_of_disjoint cs A B p h2]
          · rw [if_neg h2, margList_comp cs A B p (fun c hc => ih c hc A B p)]
  | hprod cs ih =>
    intro A B p
    by_cases hA1 : qscopeList cs ⊆ A
    · rw [marginalize_prod_eq, if_pos hA1, Option.none_bind, marginalize_prod_eq,
        if_pos (hA1.trans Finset.subset_union_left)]
    · by_cases hA2 : qscopeList cs ∩ A = ∅
      · rw [marginalize_prod_eq, if_neg hA1, if_pos hA2, Option.some_bind]
        exact marg_inter_congr (.prodN cs) B (A ∪ B) p (by
          show qscopeList cs ∩ B = qscopeList cs ∩ (A ∪ B)
          rw [Finset.inter_union_distrib_left, hA2, Finset.empty_union])
      · have hABne : ¬ qscopeList cs ∩ (A ∪ B) = ∅ := by
          intro hc
          apply hA2
          rw [Finset.inter_union_distrib_left] at hc
          exact (Finset.union_eq_empty.mp hc).1
        have hQ2 : qscopeList (margList cs A p) = qscopeList cs \ A :=
          qscope_margList cs A p (fun c _ c₂ h => qscope_marg_some c A p c₂ h)
        rw [marginalize_prod_eq, if_neg hA1, if_neg hA2]
        by_cases hps : (p : Prop) ∧ (margList cs A p).length = 1
        · obtain ⟨c₁, hc₁⟩ := List.length_eq_one.mp hps.2
          have hsingle : cs.filterMap (fun c => marginalize c A p) = [c₁] := by
            rw [← margList_eq_filterMap, hc₁]
          have hml : margList cs (A ∪ B) p = (marginalize c₁ B p).toList := by
            rw [margList_eq_filterMap, ← List.filterMap_congr (fun c hc => ih c hc A B p)]
            exact filterMap_bind_of_singleton (fun c => marginalize c A p)
              (fun c₀ => marginalize c₀ B p) cs c₁ hsingle
          rw [if_pos hps, hc₁]
          simp only [List.head?_cons, Option.some_bind]
          cases hB : marginalize c₁ B p with
          | none =>
            have hQsub : qscopeList cs ⊆ A ∪ B := by
              intro x hx
              rcases mem_qscopeList.mp hx with ⟨c, hc, hxc⟩
              cases hmc : marginalize c A p with
              | none =>
                exact Finset.mem_union_left _ ((marg_none_iff c A p).mp hmc hxc)
              | some c₂ =>
                have hc₂mem : c₂ ∈ cs.filterMap (fun c => marginalize c A p) :=
                  List.mem_filterMap.mpr ⟨c, hc, hmc⟩
                rw [hsingle] at hc₂mem
                have hc₂ : c₂ = c₁ := by simpa using hc₂mem
                subst hc₂
                have hscope : qscope c₂ = qscope c \ A := qscope_marg_some c A p c₂ hmc
                have hsubB : qscope c₂ ⊆ B := (marg_none_iff c₂ B p).mp hB
                by_cases hxA : x ∈ A
                · exact Finset.mem_union_left _ hxA
                · refine Finset.mem_union_right _ (hsubB ?_)
                  rw [hscope]
                  exact Finset.mem_sdiff.mpr ⟨hxc, hxA⟩
            rw [(marg_none_iff (.prodN cs) (A ∪ B) p).mpr hQsub]
          | some c₂ =>
            have hscope₂ : qscope c₂ = qscope c₁ \ B := qscope_marg_some c₁ B p c₂ hB
            have hnotsub : ¬ qscope c₁ ⊆ B := by
              intro hsub
              rw [(marg_none_iff c₁ B p).mpr hsub] at hB
              exact absurd hB (by simp)
            have hne : (qscope c₂).Nonempty := by
              rw [hscope₂]
              exact Finset.sdiff_nonempty.mpr hnotsub
            have hQAB : qscopeList (margList cs (A ∪ B) p) = qscopeList cs \ (A ∪ B) :=
              qscope_margList cs (A ∪ B) p (fun c _ c₃ h => qscope_marg_some c (A ∪ B) p c₃ h)
            rw [hml, hB] at hQAB
            have hqc₂ : qscope c₂ = qscopeList cs \ (A ∪ B) := by
              rw [← hQAB]
              show qscope c₂ = qscope c₂ ∪ qscopeList []
              rw [qscopeList, Finset.union_empty]
            have hnotfull : ¬ qscopeList cs ⊆ A ∪ B := by
              obtain ⟨x, hx⟩ := hne
              rw [hqc₂, Finset.mem_sdiff] at hx
              exact fun hsub => hx.2 (hsub hx.1)
            rw [marginalize_prod_eq, if_neg hnotfull, if_neg hABne, hml, hB]
            rw [if_pos ⟨hps.1, by simp⟩]
            simp [Option.toList]
        · rw [if_neg hps, Option.some_bind]
          rw [marginalize_prod_eq (margList cs A p) B p, hQ2]
          by_cases h1 : qscopeList cs \ A ⊆ B
          · rw [if_pos h1, marginalize_prod_eq,
              if_pos (sdiff_subset_union_iff.mp h1)]
          · rw [if_neg h1, marginalize_prod_eq,
              if_neg (fun hc => h1 (sdiff_subset_union_iff.mpr hc)), if_neg hABne]
            by_cases h2 : (qscopeList cs \ A) ∩ B = ∅
            · rw [if_pos h2, margList_union_eq_of_disjoint cs A B p h2, if_neg hps]
            · rw [if_neg h2, margList_comp cs A B p (fun c hc => ih c hc A B p)]

/-! ## Claim C4: composition fails on the multivariate Gaussian leaf

`MultivariateGaussian.marginalize`
(torch/structure/nodes/leaves/parametric/multivariate_gaussian.py,
206-224) computes `marg_scope = [rv for rv in self.scope.query if rv not
in marg_rvs]` and then slices `self.mean[marg_scope]` and
`self.cov[marg_scope][:, marg_scope]` (and, in the one-dimensional case,
`self.mean[marg_scope[0]]` and `self.cov[marg_scope[0]][marg_scope[0]]`
for the resulting univariate `Gaussian`): the surviving *variable ids*
are used as *tensor positions*.  Its own comment asserts that the scope
indices "map to the indices of the mean vector and covariance matrix" —
true of a freshly built leaf over scope `[0, …, d-1]`, but false of the
leaf the method itself returns, whose scope is no longer `[0, …, d'-1]`.
Consequently a second marginalization reads the wrong entries (or runs
off the end of the tensor), and
`marginalize(marginalize(C, A), B) ≠ marginalize(C, A ∪ B)`: the scopes
agree but the parameters — hence the log-likelihood outputs — differ.
The embedding below carries the mean vector and covariance matrix as
position-indexed tensors and reproduces the slicing; `tensorIndex`
models tensor indexing, which raises `IndexError` out of range. -/

/-- A Gaussian-family leaf as the marginalization code handles it: a
`MultivariateGaussian` with position-indexed mean vector and covariance
matrix, or a univariate `Gaussian` with mean and standard deviation. -/
inductive GaussLeaf : Type
  | mvg (scope : List ℕ) (mean : List ℝ) (cov : List (List ℝ))
  | gauss (scope : List ℕ) (mean : ℝ) (std : ℝ)

/-- Fancy-indexing a tensor by a list of positions
(`self.mean[marg_scope]`); an out-of-range position raises. -/
def tensorIndex {α : Type} (xs : List α) : List ℕ → Except String (List α)
  | [] => Except.ok []
  | i :: rest =>
    match xs[i]? with
    | none => Except.error "IndexError"
    | some v =>
      match tensorIndex xs rest with
      | Except.error e => Except.error e
      | Except.ok vs => Except.ok (v :: vs)

/-- Embedding of `MultivariateGaussian.marginalize`: the surviving scope
is the id-filtered query scope, and the surviving ids index the mean
vector and the rows/columns of the covariance matrix as positions.  A
one-variable survivor becomes a univariate `Gaussian` with standard
deviation `sqrt(cov[rv][rv])`. -/
noncomputable def marginalizeMVGLeaf (scope : List ℕ) (mean : List ℝ)
    (cov : List (List ℝ)) (margRvs : Finset ℕ) : Except String (Option GaussLeaf) :=
  let margScope := scope.filter (fun rv => rv ∉ margRvs)
  if margScope.length = 1 then
    let rv := margScope.headD 0
    match mean[rv]?, cov[rv]? with
    | some m, some rowv =>
      match rowv[rv]? with
      | some c => Except.ok (some (.gauss margScope m (Real.sqrt c)))
      | none => Except.error "IndexError"
    | _, _ => Except.error "IndexError"
  else if margScope.isEmpty then Except.ok none
  else
    match tensorIndex mean margScope, tensorIndex cov margScope with
    | Except.ok m, Except.ok rows =>
      match rows.mapM (fun rowv => tensorIndex rowv margScope) with
      | Except.ok c => Except.ok (some (.mvg margScope m c))
      | Except.error e => Except.error e
    | Except.error e, _ => Except.error e
    | _, Except.error e => Except.error e

/-- The dispatched `marginalize` on a Gaussian-family leaf: the
multivariate leaf uses `MultivariateGaussian.marginalize`; the univariate
`Gaussian` has no specific implementation and falls to the generic `Node`
dispatch of torch/structure/nodes/node.py (fully eliminated, unchanged
copy, or `NotImplementedError` on partial overlap). -/
noncomputable def marginalizeGaussLeaf : GaussLeaf → Finset ℕ → Except String (Option GaussLeaf)
  | .mvg s mean cov, M => marginalizeMVGLeaf s mean cov M
  | .gauss s m sd, M =>
    if s.toFinset ⊆ M then Except.ok none
    else if s.toFinset ∩ M = ∅ then Except.ok (some (.gauss s m sd))
    else Except.error "NotImplementedError"

/-- Sequential marginalization of a Gaussian-family leaf by `A` then `B`
(errors and `None` propagate). -/
noncomputable def margGaussSeq (leaf : GaussLeaf) (A B : Finset ℕ) :
    Except String (Option GaussLeaf) :=
  match marginalizeGaussLeaf leaf A with
  | Except.error e => Except.error e
  | Except.ok none => Except.ok none
  | Except.ok (some leaf₂) => marginalizeGaussLeaf leaf₂ B

/-- The univariate normal log-density computed by the external
distribution collaborators (`scipy.stats.norm.logpdf`,
`torch.distributions.Normal.log_prob`). -/
noncomputable def gaussLogDensity (m sd x : ℝ) : ℝ :=
  -((x - m) ^ 2) / (2 * sd ^ 2) - Real.log sd - Real.log (Real.sqrt (2 * Real.pi))

/-- Failing input for claim C4: the leaf
`MultivariateGaussian(Scope([0,1,2]), mean=[1,2,3], cov=I)`.
Marginalizing by `{0}` and then by `{2}` yields
`Gaussian(Scope([1]), mean=3)` — the second marginalization reads
`mean[1]` of the sliced two-element mean vector `[2,3]` — while
marginalizing by `{0} ∪ {2}` at once yields `Gaussian(Scope([1]),
mean=2)`: identical scopes but different parameters, so the
log-likelihood outputs differ (shown at the data value 0).  Marginalizing
by `{0}` and then by `{1}` even raises `IndexError` (`mean[2]` on a
two-element tensor). -/
theorem mvg_marginalize_comp_failure :
    margGaussSeq (.mvg [0, 1, 2] [1, 2, 3] [[1, 0, 0], [0, 1, 0], [0, 0, 1]]) {0} {2}
        = Except.ok (some (.gauss [1] 3 (Real.sqrt 1)))
    ∧ marginalizeGaussLeaf
        (.mvg [0, 1, 2] [1, 2, 3] [[1, 0, 0], [0, 1, 0], [0, 0, 1]]) ({0} ∪ {2})
        = Except.ok (some (.gauss [1] 2 (Real.sqrt 1)))
    ∧ (3 : ℝ) ≠ 2
    ∧ gaussLogDensity 3 (Real.sqrt 1) 0 ≠ gaussLogDensity 2 (Real.sqrt 1) 0
    ∧ margGaussSeq (.mvg [0, 1, 2] [1, 2, 3] [[1, 0, 0], [0, 1, 0], [0, 0, 1]]) {0} {1}
        = Except.error "IndexError" := by
  refine ⟨rfl, rfl, by norm_num, ?_, rfl⟩
  intro h
  simp only [gaussLogDensity, Real.sqrt_one, Real.log_one] at h
  norm_num at h

/-! ## Claim C2: memoized evaluation of a DAG with shared sub-circuits

The repository's `@dispatch(memoize=True)` wrapper and the
`DispatchContext` cache (`spflow/meta/dispatch/dispatch.py` and
`spflow/meta/contexts/dispatch_context.py`) are declared and used by the
sources but their own code is not in the source tree, so the memoization
mechanism is modelled from the spec (§3 DispatchContext and §4.1):
`cache: map<operation-name, map<node-identity, result>>`;
`memoize(operation, node, compute)` returns the cached result if
`cache[operation][node]` exists, else computes, stores, and returns it.
Following §9, the DAG is an arena of nodes addressed by integer indices
(node identity), children referring to strictly smaller indices; one data
row is fixed for the whole top-level call, so a leaf node is abstracted by
its log-likelihood output.  The per-node computations are those of
torch/inference/nodes/node.py (`logsumexp` of the weighted child columns
for a sum node, column-wise sum for a product node). -/

/-- A node of the evaluation arena: a leaf with its log-likelihood output
on the fixed data row, or a sum/product over children referenced by arena
index. -/
inductive ANode : Type
  | leaf (v : ℝ)
  | sumN (ch : List ℕ) (w : List ℝ)
  | prodN (ch : List ℕ)

/-- The memoization cache of one operation: association list from node
identity to memoized result (`dispatch_ctx.cache[op]`). -/
def cacheLookup (i : ℕ) : List (ℕ × ℝ) → Option ℝ
  | [] => none
  | (j, v) :: rest => if j = i then some v else cacheLookup i rest

/-- Every child reference points to a strictly smaller arena index (the
arena is in topological order, as any acyclic circuit can be). -/
def topoOk (ar : List ANode) : Bool :=
  (List.range ar.length).all (fun i =>
    match ar[i]? with
    | some (.sumN ch _) => ch.all (· < i)
    | some (.prodN ch) => ch.all (· < i)
    | _ => true)

/-- Unmemoized recursive evaluation: every visit of a node recomputes it,
which is exactly the evaluation of the circuit in which every shared
sub-circuit is replaced by an independent structurally identical copy
(the tree unfolding).  `fuel` bounds the recursion depth; with children
at strictly smaller indices, `fuel = i + 1` is always sufficient for
node `i`. -/
noncomputable def llPlain (ar : List ANode) : ℕ → ℕ → ℝ
  | 0, _ => 0
  | fuel + 1, i =>
    match ar[i]? with
    | some (.leaf v) => v
    | some (.sumN ch w) =>
      logsumexp (List.zipWith (fun x wi => x + Real.log wi)
        (ch.map (llPlain ar fuel)) w)
    | some (.prodN ch) => (ch.map (llPlain ar fuel)).sum
    | none => 0

/-- The canonical value of node `i` (unmemoized evaluation with
sufficient fuel). -/
noncomputable def llTrue (ar : List ANode) (i : ℕ) : ℝ :=
  llPlain ar (i + 1) i

/-- Modelled from the spec: sequential memoized evaluation of a list of
children, threading the cache left to right (the list comprehension of
`torch.hstack([log_likelihood(child, data, dispatch_ctx=dispatch_ctx)
for child in node.children()])`).  Returns the child outputs, the final
cache, and the concatenated traces of computed node identities. -/
noncomputable def llMemoList (f : ℕ → List (ℕ × ℝ) → ℝ × List (ℕ × ℝ) × List ℕ) :
    List ℕ → List (ℕ × ℝ) → List ℝ × List (ℕ × ℝ) × List ℕ
  | [], cache => ([], cache, [])
  | j :: js, cache =>
    let r := f j cache
    let rest := llMemoList f js r.2.1
    (r.1 :: rest.1, rest.2.1, r.2.2 ++ rest.2.2)

/-- Modelled from the spec: memoized evaluation.  On a cache hit the
stored result is returned and nothing is computed; on a miss the node is
computed (recursively evaluating its children through the same cache),
the result is stored under the node's identity, and the node's identity
is appended to the trace of performed computations. -/
noncomputable def llMemo (ar : List ANode) : ℕ → ℕ → List (ℕ × ℝ) → ℝ × List (ℕ × ℝ) × List ℕ
  | 0, _, cache => (0, cache, [])
  | fuel + 1, i, cache =>
    match cacheLookup i cache with
    | some v => (v, cache, [])
    | none =>
      let r :=
        match ar[i]? with
        | some (.leaf v) => (v, cache, ([] : List ℕ))
        | some (.sumN ch w) =>
          let rs := llMemoList (llMemo ar fuel) ch cache
          (logsumexp (List.zipWith (fun x wi => x + Real.log wi) rs.1 w),
            rs.2.1, rs.2.2)
        | some (.prodN ch) =>
          let rs := llMemoList (llMemo ar fuel) ch cache
          (rs.1.sum, rs.2.1, rs.2.2)
        | none => (0, cache, [])
      (r.1, (i, r.1) :: r.2.1, r.2.2 ++ [i])

theorem topo_sum_lt {ar : List ANode} (h : topoOk ar = true) {i : ℕ} {ch : List ℕ}
    {w : List ℝ} (hi : ar[i]? = some (.sumN ch w)) : ∀ j ∈ ch, j < i := by
  intro j hj
  have hlen : i < ar.length := by
    by_contra hge
    rw [List.getElem?_eq_none (Nat.le_of_not_lt hge)] at hi
    exact absurd hi (by simp)
  have hall := List.all_eq_true.mp h i (List.mem_range.mpr hlen)
  rw [hi] at hall
  exact of_decide_eq_true (List.all_eq_true.mp hall j hj)

theorem topo_prod_lt {ar : List ANode} (h : topoOk ar = true) {i : ℕ} {ch : List ℕ}
    (hi : ar[i]? = some (.prodN ch)) : ∀ j ∈ ch, j < i := by
  intro j hj
  have hlen : i < ar.length := by
    by_contra hge
    rw [List.getElem?_eq_none (Nat.le_of_not_lt hge)] at hi
    exact absurd hi (by simp)
  have hall := List.all_eq_true.mp h i (List.mem_range.mpr hlen)
  rw [hi] at hall
  exact of_decide_eq_true (List.all_eq_true.mp hall j hj)

/-- Under topological order any fuel above a node's index evaluates it to
its canonical value. -/
theorem llPlain_eq_llTrue {ar : List ANode} (htopo : topoOk ar = true) :
    ∀ i fuel, i < fuel → llPlain ar fuel i = llTrue ar i := by
  intro i
  induction i using Nat.strong_induction_on with
  | _ i ih =>
    intro fuel hfuel
    obtain ⟨f, rfl⟩ : ∃ f, fuel = f + 1 := ⟨fuel - 1, by omega⟩
    rw [llTrue]
    cases hnode : ar[i]? with
    | none => simp [llPlain, hnode]
    | some nd =>
      cases nd with
      | leaf v => simp [llPlain, hnode]
      | sumN ch w =>
        have hch := topo_sum_lt htopo hnode
        have hmap : ch.map (llPlain ar f) = ch.map (llPlain ar i) := by
          apply List.map_congr_left
          intro j hj
          have hji := hch j hj
          rw [ih j hji f (by omega), ih j hji i hji]
        simp only [llPlain, hnode, hmap]
      | prodN ch =>
        have hch := topo_prod_lt htopo hnode
        have hmap : ch.map (llPlain ar f) = ch.map (llPlain ar i) := by
          apply List.map_congr_left
          intro j hj
          have hji := hch j hj
          rw [ih j hji f (by omega), ih j hji i hji]
        simp only [llPlain, hnode, hmap]

theorem cacheLookup_cons (i j : ℕ) (v : ℝ) (cache : List (ℕ × ℝ)) :
    cacheLookup j ((i, v) :: cache) = if i = j then some v else cacheLookup j cache := rfl

theorem llMemoList_cons_fst (f : ℕ → List (ℕ × ℝ) → ℝ × List (ℕ × ℝ) × List ℕ)
    (j : ℕ) (js : List ℕ) (cache : List (ℕ × ℝ)) :
    (llMemoList f (j :: js) cache).1
      = (f j cache).1 :: (llMemoList f js (f j cache).2.1).1 := rfl

theorem llMemoList_cons_cache (f : ℕ → List (ℕ × ℝ) → ℝ × List (ℕ × ℝ) × List ℕ)
    (j : ℕ) (js : List ℕ) (cache : List (ℕ × ℝ)) :
    (llMemoList f (j :: js) cache).2.1
      = (llMemoList f js (f j cache).2.1).2.1 := rfl

theorem llMemoList_cons_trace (f : ℕ → List (ℕ × ℝ) → ℝ × List (ℕ × ℝ) × List ℕ)
    (j : ℕ) (js : List ℕ) (cache : List (ℕ × ℝ)) :
    (llMemoList f (j :: js) cache).2.2
      = (f j cache).2.2 ++ (llMemoList f js (f j cache).2.1).2.2 := rfl

/-- The memoization-cache invariant: every stored result is the node's
canonical (unmemoized) value. -/
def CacheInv (ar : List ANode) (cache : List (ℕ × ℝ)) : Prop :=
  ∀ j v, cacheLookup j cache = some v → v = llTrue ar j

theorem llMemo_spec {ar : List ANode} (htopo : topoOk ar = true) :
    ∀ fuel i cache, i < fuel → CacheInv ar cache →
      (llMemo ar fuel i cache).1 = llTrue ar i
      ∧ CacheInv ar (llMemo ar fuel i cache).2.1
      ∧ (∀ j v, cacheLookup j cache = some v →
          cacheLookup j (llMemo ar fuel i cache).2.1 = some v)
      ∧ (∀ j ∈ (llMemo ar fuel i cache).2.2,
          cacheLookup j cache = none
          ∧ cacheLookup j (llMemo ar fuel i cache).2.1 ≠ none
          ∧ j ≤ i)
      ∧ (llMemo ar fuel i cache).2.2.Nodup := by
  intro fuel
  induction fuel with
  | zero => intro i cache hi; exact absurd hi (Nat.not_lt_zero i)
  | succ fuel ihf =>
    have hLL : ∀ ch : List ℕ, ∀ cache : List (ℕ × ℝ), (∀ j ∈ ch, j < fuel) →
        CacheInv ar cache →
        (llMemoList (llMemo ar fuel) ch cache).1 = ch.map (llTrue ar)
        ∧ CacheInv ar (llMemoList (llMemo ar fuel) ch cache).2.1
        ∧ (∀ j v, cacheLookup j cache = some v →
            cacheLookup j (llMemoList (llMemo ar fuel) ch cache).2.1 = some v)
        ∧ (∀ j ∈ (llMemoList (llMemo ar fuel) ch cache).2.2,
            cacheLookup j cache = none
            ∧ cacheLookup j (llMemoList (llMemo ar fuel) ch cache).2.1 ≠ none
            ∧ ∃ k ∈ ch, j ≤ k)
        ∧ (llMemoList (llMemo ar fuel) ch cache).2.2.Nodup := by
      intro ch
      induction ch with
      | nil =>
        intro cache _ hInv
        refine ⟨rfl, hInv, fun j v h => h, ?_, ?_⟩
        · intro j hj
          exact absurd hj (by simp [llMemoList])
        · simp [llMemoList]
      | cons j js ihch =>
        intro cache hlt hInv
        obtain ⟨hr1, hr2, hr3, hr4, hr5⟩ := ihf j cache (hlt j (by simp)) hInv
        obtain ⟨hs1, hs2, hs3, hs4, hs5⟩ :=
          ihch (llMemo ar fuel j cache).2.1 (fun k hk => hlt k (by simp [hk])) hr2
        refine ⟨?_, ?_, ?_, ?_, ?_⟩
        · rw [llMemoList_cons_fst, hr1, hs1, List.map_cons]
        · rw [llMemoList_cons_cache]
          exact hs2
        · intro j₂ v h
          rw [llMemoList_cons_cache]
          exact hs3 j₂ v (hr3 j₂ v h)
        · intro j₂ hj₂
          rw [llMemoList_cons_trace] at hj₂
          rw [llMemoList_cons_cache]
          rcases List.mem_append.mp hj₂ with hmem | hmem
          · obtain ⟨hnone, hsome, hle⟩ := hr4 j₂ hmem
            cases hlook : cacheLookup j₂ (llMemo ar fuel j cache).2.1 with
            | none => exact absurd hlook hsome
            | some v₂ =>
              refine ⟨hnone, ?_, ⟨j, by simp, hle⟩⟩
              rw [hs3 j₂ v₂ hlook]
              simp
          · obtain ⟨hnone₂, hsome, k, hk, hle⟩ := hs4 j₂ hmem
            refine ⟨?_, hsome, ⟨k, by simp [hk], hle⟩⟩
            cases hlook : cacheLookup j₂ cache with
            | none => rfl
            | some v₂ => exact absurd (hr3 j₂ v₂ hlook) (by simp [hnone₂])
        · rw [llMemoList_cons_trace]
          rw [List.nodup_append]
          refine ⟨hr5, hs5, ?_⟩
          intro a ha₁ ha₂
          obtain ⟨_, hsome, _⟩ := hr4 a ha₁
          obtain ⟨hnone₂, _, _⟩ := hs4 a ha₂
          exact hsome hnone₂
    intro i cache hi hInv
    cases hcache : cacheLookup i cache with
    | some v =>
      have heq : llMemo ar (fuel + 1) i cache = (v, cache, []) := by
        simp only [llMemo, hcache]
      rw [heq]
      refine ⟨hInv i v hcache, hInv, fun j v₂ h => h, ?_, by simp⟩
      intro j hj
      exact absurd hj (by simp)
    | none =>
      have hfresh : ∀ j v₂, cacheLookup j cache = some v₂ → i ≠ j := by
        intro j v₂ h he
        rw [he, h] at hcache
        exact absurd hcache (by simp)
      cases hnode : ar[i]? with
      | none =>
        have heq : llMemo ar (fuel + 1) i cache = (0, (i, 0) :: cache, [i]) := by
          simp only [llMemo, hcache, hnode, List.nil_append]
        have hval : llTrue ar i = 0 := by simp [llTrue, llPlain, hnode]
        rw [heq]
        refine ⟨hval.symm, ?_, ?_, ?_, by simp⟩
        · intro j v h
          rw [cacheLookup_cons] at h
          by_cases hij : i = j
          · rw [if_pos hij] at h
            have hv : v = 0 := by injection h with h; exact h.symm
            rw [hv, ← hij, hval]
          · rw [if_neg hij] at h
            exact hInv j v h
        · intro j v h
          rw [cacheLookup_cons, if_neg (hfresh j v h)]
          exact h
        · intro j hj
          have hji : j = i := by simpa using hj
          subst hji
          exact ⟨hcache, by rw [cacheLookup_cons, if_pos rfl]; simp, le_refl j⟩
      | some nd =>
        cases nd with
        | leaf v =>
          have heq : llMemo ar (fuel + 1) i cache = (v, (i, v) :: cache, [i]) := by
            simp only [llMemo, hcache, hnode, List.nil_append]
          have hval : llTrue ar i = v := by simp [llTrue, llPlain, hnode]
          rw [heq]
          refine ⟨hval.symm, ?_, ?_, ?_, by simp⟩
          · intro j v₂ h
            rw [cacheLookup_cons] at h
            by_cases hij : i = j
            · rw [if_pos hij] at h
              have hv : v₂ = v := by injection h with h; exact h.symm
              rw [hv, ← hij, hval]
            · rw [if_neg hij] at h
              exact hInv j v₂ h
          · intro j v₂ h
            rw [cacheLookup_cons, if_neg (hfresh j v₂ h)]
            exact h
          · intro j hj
            have hji : j = i := by simpa using hj
            subst hji
            exact ⟨hcache, by rw [cacheLookup_cons, if_pos rfl]; simp, le_refl j⟩
        | sumN ch w =>
          have hchi := topo_sum_lt htopo hnode
          have hchlt : ∀ j ∈ ch, j < fuel :=
            fun j hj => Nat.lt_of_lt_of_le (hchi j hj) (Nat.lt_succ_iff.mp hi)
          obtain ⟨hL1, hL2, hL3, hL4, hL5⟩ := hLL ch cache hchlt hInv
          have heq : llMemo ar (fuel + 1) i cache
              = (logsumexp (List.zipWith (fun x wi => x + Real.log wi)
                    (llMemoList (llMemo ar fuel) ch cache).1 w),
                 (i, logsumexp (List.zipWith (fun x wi => x + Real.log wi)
                    (llMemoList (llMemo ar fuel) ch cache).1 w))
                   :: (llMemoList (llMemo ar fuel) ch cache).2.1,
                 (llMemoList (llMemo ar fuel) ch cache).2.2 ++ [i]) := by
            simp only [llMemo, hcache, hnode]
          have hval : llTrue ar i
              = logsumexp (List.zipWith (fun x wi => x + Real.log wi)
                  (llMemoList (llMemo ar fuel) ch cache).1 w) := by
            rw [hL1, llTrue]
            simp only [llPlain, hnode]
            have hmap : ch.map (llPlain ar i) = ch.map (llTrue ar) := by
              apply List.map_congr_left
              intro j hj
              exact llPlain_eq_llTrue htopo j i (hchi j hj)
            rw [hmap]
          rw [heq]
          refine ⟨hval.symm, ?_, ?_, ?_, ?_⟩
          · intro j v h
            rw [cacheLookup_cons] at h
            by_cases hij : i = j
            · rw [if_pos hij] at h
              subst hij
              injection h with hv
              rw [hval]
              exact hv.symm
            · rw [if_neg hij] at h
              exact hL2 j v h
          · intro j v h
            rw [cacheLookup_cons, if_neg (hfresh j v h)]
            exact hL3 j v h
          · intro j hj
            rcases List.mem_append.mp hj with hmem | hmem
            · obtain ⟨hnone, hsome, k, hk, hle⟩ := hL4 j hmem
              have hji : j < i := Nat.lt_of_le_of_lt hle (hchi k hk)
              refine ⟨hnone, ?_, Nat.le_of_lt hji⟩
              rw [cacheLookup_cons, if_neg (fun he => absurd he.symm (Nat.ne_of_lt hji))]
              exact hsome
            · have hji : j = i := by simpa using hmem
              subst hji
              exact ⟨hcache, by rw [cacheLookup_cons, if_pos rfl]; simp, le_refl j⟩
          · rw [List.nodup_append]
            refine ⟨hL5, by simp, ?_⟩
            intro a ha₁ ha₂
            have hai : a = i := by simpa using ha₂
            subst hai
            obtain ⟨_, _, k, hk, hle⟩ := hL4 a ha₁
            exact absurd rfl (Nat.ne_of_lt (Nat.lt_of_le_of_lt hle (hchi k hk)))
        | prodN ch =>
          have hchi := topo_prod_lt htopo hnode
          have hchlt : ∀ j ∈ ch, j < fuel :=
            fun j hj => Nat.lt_of_lt_of_le (hchi j hj) (Nat.lt_succ_iff.mp hi)
          obtain ⟨hL1, hL2, hL3, hL4, hL5⟩ := hLL ch cache hchlt hInv
          have heq : llMemo ar (fuel + 1) i cache
              = ((llMemoList (llMemo ar fuel) ch cache).1.sum,
                 (i, (llMemoList (llMemo ar fuel) ch cache).1.sum)
                   :: (llMemoList (llMemo ar fuel) ch cache).2.1,
                 (llMemoList (llMemo ar fuel) ch cache).2.2 ++ [i]) := by
            simp only [llMemo, hcache, hnode]
          have hval : llTrue ar i = (llMemoList (llMemo ar fuel) ch cache).1.sum := by
            rw [hL1, llTrue]
            simp only [llPlain, hnode]
            have hmap : ch.map (llPlain ar i) = ch.map (llTrue ar) := by
              apply List.map_congr_left
              intro j hj
              exact llPlain_eq_llTrue htopo j i (hchi j hj)
            rw [hmap]
          rw [heq]
          refine ⟨hval.symm, ?_, ?_, ?_, ?_⟩
          · intro j v h
            rw [cacheLookup_cons] at h
            by_cases hij : i = j
            · rw [if_pos hij] at h
              subst hij
              injection h with hv
              rw [hval]
              exact hv.symm
            · rw [if_neg hij] at h
              exact hL2 j v h
          · intro j v h
            rw [cacheLookup_cons, if_neg (hfresh j v h)]
            exact hL3 j v h
          · intro j hj
            rcases List.mem_append.mp hj with hmem | hmem
            · obtain ⟨hnone, hsome, k, hk, hle⟩ := hL4 j hmem
              have hji : j < i := Nat.lt_of_le_of_lt hle (hchi k hk)
              refine ⟨hnone, ?_, Nat.le_of_lt hji⟩
              rw [cacheLookup_cons, if_neg (fun he => absurd he.symm (Nat.ne_of_lt hji))]
              exact hsome
            · have hji : j = i := by simpa using hmem
              subst hji
              exact ⟨hcache, by rw [cacheLookup_cons, if_pos rfl]; simp, le_refl j⟩
          · rw [List.nodup_append]
            refine ⟨hL5, by simp, ?_⟩
            intro a ha₁ ha₂
            have hai : a = i := by simpa using ha₂
            subst hai
            obtain ⟨_, _, k, hk, hle⟩ := hL4 a ha₁
            exact absurd rfl (Nat.ne_of_lt (Nat.lt_of_le_of_lt hle (hchi k hk)))

/-- Claim C2: a single top-level memoized `log_likelihood` call from an
empty dispatch-context cache evaluates every node of a shared-node DAG at
most once (the trace of performed computations has no duplicate node
identity — a second visit returns the cached result instead of
recomputing), and the root result equals the unmemoized evaluation
`llPlain`, i.e. the evaluation of the circuit in which every shared
sub-circuit is replaced by independent structurally identical copies. -/
theorem memoized_ll_at_most_once (ar : List ANode) (root : ℕ)
    (htopo : topoOk ar = true) (hroot : root < ar.length) :
    (llMemo ar (root + 1) root []).1 = llPlain ar (root + 1) root
    ∧ (llMemo ar (root + 1) root []).2.2.Nodup
    ∧ ∀ n, (llMemo ar (root + 1) root []).2.2.count n ≤ 1 := by
  have hInv : CacheInv ar [] := by
    intro j v h
    exact absurd h (by simp [cacheLookup])
  obtain ⟨h1, _, _, _, h5⟩ :=
    llMemo_spec htopo (root + 1) root [] (Nat.lt_succ_self root) hInv
  refine ⟨?_, h5, ?_⟩
  · rw [h1, llPlain_eq_llTrue htopo root (root + 1) (Nat.lt_succ_self root)]
  · intro n
    exact List.nodup_iff_count_le_one.mp h5 n

/-- A concrete DAG in which the leaf node 0 is shared by the two sum
nodes 1 and 2, which a product node 3 combines. -/
def sharedArena : List ANode :=
  [.leaf 0, .sumN [0] [1], .sumN [0] [1], .prodN [1, 2]]

/-- Witness for C2 on `sharedArena`: the memoized result at the root
equals the unmemoized (copy-expanded) evaluation, and the shared leaf is
computed at most once. -/
theorem memoized_ll_at_most_once_witness :
    (llMemo sharedArena 4 3 []).1 = llPlain sharedArena 4 3
    ∧ (llMemo sharedArena 4 3 []).2.2.Nodup
    ∧ ∀ n, (llMemo sharedArena 4 3 []).2.2.count n ≤ 1 :=
  memoized_ll_at_most_once sharedArena 3 (by decide) (by decide)

end SPFlow
